import Mathlib

/-!
Verification of the `Number.isSafeNumeric` proposal (spec.emu).

The algorithm of `Number.isSafeNumeric ( input )` is embedded below:
steps 1-2 (type check), steps 3-5 (lexical validation), steps 6-7
(mathematical value and magnitude bound), step 8 (`ToNumber`, i.e.
correctly rounded decimal-to-binary64 conversion, round to nearest,
ties to even), step 9 (`ToString`, i.e. the ECMAScript shortest
round-trip decimal formatting `Number::toString`), and steps 10-12
(exact mathematical-value comparison).

All arithmetic is exact rational arithmetic (`ℚ`); binary64 values are
represented by the exact rational value they denote.  Every definition
is executable, so concrete runs of the predicate can be settled by
`decide`.
-/

namespace IsSafeNumeric

/-! ## Lexical validation (spec.emu steps 3-5)

The note in spec.emu:  the string contains only ASCII digits with an
optional single leading minus sign, at most one decimal point with
digits on both sides, and no leading zeros (except a single `0`
integer part), no whitespace or other characters. -/

/-- `c` is an ASCII digit `0`-`9`. -/
def isAsciiDigit (c : Char) : Bool := 48 ≤ c.toNat && c.toNat ≤ 57

/-- Numeric value of an ASCII digit. -/
def digitVal (c : Char) : ℕ := c.toNat - 48

/-- Value of a digit sequence read in base 10. -/
def digitsToNat (l : List Char) : ℕ := l.foldl (fun a c => 10 * a + digitVal c) 0

/-- The integer part: nonempty, all digits, and no leading zero unless it
is the single digit `0`. -/
def intPartOK (l : List Char) : Bool :=
  !l.isEmpty && l.all isAsciiDigit &&
    (decide (l.length ≤ 1) || !(decide (l.head? = some '0')))

/-- What may follow the integer part: nothing, or a decimal point
followed by a nonempty run of digits. -/
def fracTailOK : List Char → Bool
  | [] => true
  | c :: fs => decide (c = '.') && !fs.isEmpty && fs.all isAsciiDigit

/-- Lexical validity of an unsigned numeric string. -/
def validUnsigned (l : List Char) : Bool :=
  intPartOK (l.takeWhile isAsciiDigit) && fracTailOK (l.dropWhile isAsciiDigit)

/-- Strip one leading minus sign. -/
def stripSign (l : List Char) : List Char :=
  if l.head? = some '-' then l.tail else l

/-- Lexical validity (spec.emu steps 3-5): optional single leading minus
sign, then an unsigned numeric string. -/
def validNumeric (l : List Char) : Bool :=
  validUnsigned (stripSign l)

/-! ## Mathematical value (spec.emu steps 6 and 10)

The mathematical value of a decimal numeric string, as an exact
rational.  The strings this is applied to are either lexically valid
inputs (no exponent part) or outputs of `ToString` (which may carry an
exponent part `e±ddd`), so the parser accepts an optional exponent
suffix as in the ECMAScript StringNumericLiteral grammar. -/

/-- Equality test on `ℚ` by the (always reduced) numerator/denominator
representation; agrees with `=` (see `ratEq_iff`). -/
def ratEq (a b : ℚ) : Bool := decide (a.num = b.num) && decide (a.den = b.den)

/-- The fractional digits: the run of digits after the decimal point. -/
def fracOf (l : List Char) : List Char :=
  if l.head? = some '.' then l.tail.takeWhile isAsciiDigit else []

/-- What remains after the fractional digits. -/
def afterFrac (l : List Char) : List Char :=
  if l.head? = some '.' then l.tail.dropWhile isAsciiDigit else l

/-- Value of an exponent suffix `e±ddd` (and `0` when absent). -/
def expOf (l : List Char) : ℤ :=
  if l.head? = some 'e' then
    if l.tail.head? = some '-' then -(digitsToNat l.tail.tail : ℤ)
    else if l.tail.head? = some '+' then (digitsToNat l.tail.tail : ℤ)
    else (digitsToNat l.tail : ℤ)
  else 0

/-- `q * 10 ^ p` for an integer exponent `p`, in exact rational
arithmetic. -/
def qpow10 (q : ℚ) (p : ℤ) : ℚ :=
  if 0 ≤ p then q * ((10 ^ p.toNat : ℕ) : ℚ) else q / ((10 ^ (-p).toNat : ℕ) : ℚ)

/-- Mathematical value of an unsigned numeric string
`digits [. digits] [e±digits]`. -/
def strMVpos (l : List Char) : ℚ :=
  qpow10
    ((digitsToNat (l.takeWhile isAsciiDigit) : ℚ) +
      (digitsToNat (fracOf (l.dropWhile isAsciiDigit)) : ℚ) /
        ((10 ^ (fracOf (l.dropWhile isAsciiDigit)).length : ℕ) : ℚ))
    (expOf (afterFrac (l.dropWhile isAsciiDigit)))

/-- Mathematical value of a numeric string with an optional sign. -/
def strMV (l : List Char) : ℚ :=
  if l.head? = some '-' then -(strMVpos (stripSign l)) else strMVpos (stripSign l)

/-! ## Magnitude bound (spec.emu step 7) -/

/-- `2 ^ 53 - 1`, i.e. `Number.MAX_SAFE_INTEGER`. -/
def maxSafeInteger : ℚ := 9007199254740991

/-- Absolute value, executably. -/
def qabs (q : ℚ) : ℚ := if q < 0 then -q else q

/-- Step 7 of spec.emu: reject when `abs(mv1) > 2 ^ 53 - 1`, where `mv1`
is the mathematical value of the whole string. -/
def boundRejects (l : List Char) : Bool := decide (maxSafeInteger < qabs (strMV l))

/-! ## Correctly rounded decimal-to-binary64 conversion (`ToNumber`)

A finite binary64 value is `± m * 2 ^ E` with `m < 2 ^ 53` and
`E ≥ -1074`; we compute the value nearest to a given rational, with
ties going to an even significand, and represent it by the exact
rational it denotes.  (Overflow to infinity cannot occur here: the
orchestrator only converts values already bounded by `2 ^ 53 - 1`.) -/

/-- Largest `e` with `c * base ^ e ≤ a` (fuel-driven loop; `c ≤ a`). -/
def upCount (base : ℕ) : ℕ → ℕ → ℕ → ℕ
  | 0, _, _ => 0
  | f + 1, a, c => if c * base ≤ a then upCount base f a (c * base) + 1 else 0

/-- Smallest `e` with `b ≤ a * base ^ e` (fuel-driven loop; `a < b`). -/
def downCount (base : ℕ) : ℕ → ℕ → ℕ → ℕ
  | 0, _, _ => 0
  | f + 1, a, b => if b ≤ a then 0 else downCount base f (a * base) b + 1

/-- `⌊log_base (a / b)⌋` for positive naturals `a`, `b`. -/
def flogB (base a b : ℕ) : ℤ :=
  if b ≤ a then (upCount base a a b : ℤ) else -(downCount base b a b : ℤ)

/-- Round `n / d` to the nearest natural, ties to even (`d > 0`). -/
def rndInt (n d : ℕ) : ℕ :=
  if 2 * (n % d) < d then n / d
  else if d < 2 * (n % d) then n / d + 1
  else if n / d % 2 = 0 then n / d else n / d + 1

/-- Round `(a / b) / 2 ^ E` to the nearest natural, ties to even. -/
def roundSig (a b : ℕ) (E : ℤ) : ℕ :=
  if 0 ≤ E then rndInt a (b * 2 ^ E.toNat) else rndInt (a * 2 ^ (-E).toNat) b

/-- The rational `m * 2 ^ E`. -/
def pow2Val (m : ℕ) (E : ℤ) : ℚ :=
  if 0 ≤ E then ((m * 2 ^ E.toNat : ℕ) : ℚ) else (m : ℚ) / ((2 ^ (-E).toNat : ℕ) : ℚ)

/-- Nearest binary64 value to the positive rational `a / b`:  the
quantum exponent is `max (⌊log2 (a/b)⌋ - 52) (-1074)` (the latter for
subnormals), and the significand is obtained by rounding to nearest
with ties to even. -/
def roundPosB64 (a b : ℕ) : ℚ :=
  pow2Val (roundSig a b (max (flogB 2 a b - 52) (-1074))) (max (flogB 2 a b - 52) (-1074))

/-- `ToNumber` on the mathematical value of a numeric string: the
nearest binary64 value, round to nearest, ties to even. -/
def roundB64 (q : ℚ) : ℚ :=
  if q.num = 0 then 0
  else if 0 < q.num then roundPosB64 q.num.toNat q.den
  else -(roundPosB64 (-q.num).toNat q.den)

/-! ## Shortest round-trip decimal formatting (`ToString`)

ECMAScript `Number::toString(x, 10)`: for a nonzero finite `x` pick
integers `n`, `k`, `s` with `k ≥ 1`, `10 ^ (k-1) ≤ s < 10 ^ k`, such
that the Number value of `s * 10 ^ (n-k)` is `x`, with `k` as small as
possible; if several `s` qualify, the one whose value is closest to
`x`, and on a tie the even one.  The digits of `s` are then laid out
in one of the positional or exponent formats. -/

/-- Decimal digit characters. -/
def digitChar : ℕ → Char
  | 0 => '0'
  | 1 => '1'
  | 2 => '2'
  | 3 => '3'
  | 4 => '4'
  | 5 => '5'
  | 6 => '6'
  | 7 => '7'
  | 8 => '8'
  | _ => '9'

/-- Digit accumulation loop for `natDigits`. -/
def natDigitsGo : ℕ → ℕ → List Char → List Char
  | 0, _, acc => acc
  | f + 1, n, acc => if n = 0 then acc else natDigitsGo f (n / 10) (digitChar (n % 10) :: acc)

/-- Decimal digit string of a natural number. -/
def natDigits (n : ℕ) : List Char :=
  if n = 0 then ['0'] else natDigitsGo n n []

/-- Number of decimal digits. -/
def digitCount (n : ℕ) : ℕ := (natDigits n).length

/-- The rational `s * 10 ^ p`. -/
def pow10Val (s : ℕ) (p : ℤ) : ℚ :=
  if 0 ≤ p then ((s * 10 ^ p.toNat : ℕ) : ℚ) else (s : ℚ) / ((10 ^ (-p).toNat : ℕ) : ℚ)

/-- Floor of a positive rational. -/
def qfloorPos (q : ℚ) : ℕ := q.num.toNat / q.den

/-- A candidate `(s, n)` for digit count `k` is admissible if `s` has
exactly `k` digits and the decimal `s * 10 ^ (n-k)` converts back to
exactly the binary64 value `v`. -/
def candOK (v : ℚ) (k : ℕ) (p : ℕ × ℤ) : Bool :=
  decide (10 ^ (k - 1) ≤ p.1) && decide (p.1 < 10 ^ k) &&
    ratEq (roundB64 (pow10Val p.1 (p.2 - k))) v

/-- For decimal exponent `n`, the two integers nearest `v * 10 ^ (k-n)`
are the only possible `k`-digit significands. -/
def candsFor (v : ℚ) (k : ℕ) (n : ℤ) : List (ℕ × ℤ) :=
  [(qfloorPos (qpow10 v ((k : ℤ) - n)), n), (qfloorPos (qpow10 v ((k : ℤ) - n)) + 1, n)]

/-- Of two admissible candidates keep the one whose value is closest to
`v`; on a tie, the one with even `s`. -/
def chooseCand (v : ℚ) (k : ℕ) (p1 p2 : ℕ × ℤ) : ℕ × ℤ :=
  if qabs (pow10Val p1.1 (p1.2 - k) - v) < qabs (pow10Val p2.1 (p2.2 - k) - v) then p1
  else if qabs (pow10Val p2.1 (p2.2 - k) - v) < qabs (pow10Val p1.1 (p1.2 - k) - v) then p2
  else if p1.1 % 2 = 0 then p1 else p2

/-- Best admissible candidate of a list, per `chooseCand`. -/
def pickBest (v : ℚ) (k : ℕ) : List (ℕ × ℤ) → Option (ℕ × ℤ)
  | [] => none
  | c :: cs => some (cs.foldl (chooseCand v k) c)

/-- Try digit count `k`: the decimal exponent of `v` is within one of
`⌊log10 v⌋ + 1`, and for each exponent only the two integers nearest
`v * 10 ^ (k-n)` can qualify. -/
def tryK (v : ℚ) (k : ℕ) : Option (ℕ × ℤ) :=
  pickBest v k
    (((candsFor v k (flogB 10 v.num.toNat v.den + 1 - 1) ++
        candsFor v k (flogB 10 v.num.toNat v.den + 1)) ++
      candsFor v k (flogB 10 v.num.toNat v.den + 1 + 1)).filter (candOK v k))

/-- Remove factors of 10: `strip10 fuel n = (s, t)` with `n = s * 10 ^ t`
and `10 ∤ s` (for `n > 0` and enough fuel). -/
def strip10 : ℕ → ℕ → ℕ × ℕ
  | 0, n => (n, 0)
  | f + 1, n =>
    if n % 10 = 0 && decide (n ≠ 0) then ((strip10 f (n / 10)).1, (strip10 f (n / 10)).2 + 1)
    else (n, 0)

/-- Loop for `natLog2`. -/
def natLog2Go : ℕ → ℕ → ℕ
  | 0, _ => 0
  | f + 1, n => if 2 ≤ n then natLog2Go f (n / 2) + 1 else 0

/-- `⌊log2 n⌋` (and 0 at 0). -/
def natLog2 (n : ℕ) : ℕ := natLog2Go n n

/-- Exact decimal representation of a positive binary64 value `v` (whose
reduced denominator is a power of two): `v = a / 2 ^ j = a * 5 ^ j / 10 ^ j`.
Fallback for `shortestRep`; a 17-digit candidate always exists for a
binary64 value, so this is never reached from the orchestrator. -/
def exactRep (v : ℚ) : ℕ × ℤ :=
  ((strip10 (v.num.toNat * 5 ^ natLog2 v.den) (v.num.toNat * 5 ^ natLog2 v.den)).1,
    (digitCount (strip10 (v.num.toNat * 5 ^ natLog2 v.den) (v.num.toNat * 5 ^ natLog2 v.den)).1 : ℤ) +
      (strip10 (v.num.toNat * 5 ^ natLog2 v.den) (v.num.toNat * 5 ^ natLog2 v.den)).2 - natLog2 v.den)

/-- Search the digit counts `k = 1, 2, ...` in order; the first `k` with
an admissible candidate wins. -/
def shortestRepGo (v : ℚ) : ℕ → ℕ → ℕ × ℤ
  | 0, _ => exactRep v
  | f + 1, k =>
    match tryK v k with
    | some p => p
    | none => shortestRepGo v f (k + 1)

/-- The `(s, n)` pair of ECMAScript `Number::toString` for a positive
binary64 value: minimal digit count, then closest value, then even
significand. -/
def shortestRep (v : ℚ) : ℕ × ℤ := shortestRepGo v 17 1

/-- Lay the digits of `s` out as in ECMAScript `Number::toString`
steps 5-10 (positional notation for `-6 < n ≤ 21`, exponent notation
otherwise). -/
def renderPos (s : ℕ) (n : ℤ) : List Char :=
  if (natDigits s).length ≤ n ∧ n ≤ 21 then
    natDigits s ++ List.replicate (n - (natDigits s).length).toNat '0'
  else if 0 < n ∧ n ≤ 21 then
    (natDigits s).take n.toNat ++ '.' :: (natDigits s).drop n.toNat
  else if -6 < n ∧ n ≤ 0 then
    '0' :: '.' :: (List.replicate (-n).toNat '0' ++ natDigits s)
  else if (natDigits s).length = 1 then
    natDigits s ++ 'e' :: ((if n - 1 < 0 then ['-'] else ['+']) ++ natDigits (n - 1).natAbs)
  else
    (natDigits s).take 1 ++ '.' :: (natDigits s).drop 1 ++
      'e' :: ((if n - 1 < 0 then ['-'] else ['+']) ++ natDigits (n - 1).natAbs)

/-- ECMAScript `ToString` applied to a binary64 value (`"0"` for both
zeroes; a minus sign then the layout of `shortestRep` otherwise). -/
def numberToString (v : ℚ) : List Char :=
  if v.num = 0 then ['0']
  else if v.num < 0 then '-' :: renderPos (shortestRep (-v)).1 (shortestRep (-v)).2
  else renderPos (shortestRep v).1 (shortestRep v).2

/-! ## The orchestrator (spec.emu steps 1-12) -/

/-- An ECMAScript language value, as far as `isSafeNumeric` can observe
it: a string, or one of the non-string kinds. -/
inductive JSVal where
  | str (s : String)
  | num (x : ℚ)
  | bool (b : Bool)
  | undef
  | null
  | obj (id : ℕ)

/-- Whether the value is a String. -/
def isString : JSVal → Bool
  | .str _ => true
  | _ => false

/-- spec.emu steps 3-12 on the string content:  lexical validation,
then the magnitude bound on `mv1`, then accept iff `mv1` equals the
mathematical value `mv2` of `ToString(ToNumber(str))` - an exact
rational comparison, not a floating-point one. -/
def isSafeNumericStr (l : List Char) : Bool :=
  if validNumeric l then
    if boundRejects l then false
    else ratEq (strMV l) (strMV (numberToString (roundB64 (strMV l))))
  else false

/-- `Number.isSafeNumeric ( input )`: non-string inputs are rejected
(step 1); strings go through steps 3-12. -/
def isSafeNumeric : JSVal → Bool
  | .str s => isSafeNumericStr s.data
  | _ => false

/-! ## Derived views of the parsed string, used in the statements -/

/-- The digits of the integer part (after the optional sign). -/
def intDigitsOf (l : List Char) : List Char := (stripSign l).takeWhile isAsciiDigit

/-- The digits of the fractional part (after the decimal point). -/
def fracDigitsOf (l : List Char) : List Char :=
  fracOf ((stripSign l).dropWhile isAsciiDigit)

/-- Absolute value of the integer part, as a natural number. -/
def intPartAbs (l : List Char) : ℕ := digitsToNat (intDigitsOf l)

/-! ## Basic lemmas -/

theorem ratEq_iff (a b : ℚ) : ratEq a b = true ↔ a = b := by
  unfold ratEq
  simp only [Bool.and_eq_true, decide_eq_true_iff]
  exact ⟨fun h => Rat.ext h.1 h.2, fun h => by subst h; exact ⟨rfl, rfl⟩⟩

theorem digitVal_lt (c : Char) (h : isAsciiDigit c = true) : digitVal c < 10 := by
  unfold isAsciiDigit at h
  unfold digitVal
  simp only [Bool.and_eq_true, decide_eq_true_iff] at h
  omega

theorem foldl_digits_lt (l : List Char) :
    ∀ a : ℕ, (∀ c ∈ l, isAsciiDigit c = true) →
      l.foldl (fun a c => 10 * a + digitVal c) a < (a + 1) * 10 ^ l.length := by
  induction l with
  | nil => intro a _; simp
  | cons c t ih =>
    intro a h
    have hd : digitVal c < 10 := digitVal_lt c (h c (by simp))
    have ht := ih (10 * a + digitVal c) (fun x hx => h x (by simp [hx]))
    have h2 : 10 * a + digitVal c + 1 ≤ (a + 1) * 10 := by omega
    have h3 := Nat.mul_le_mul_right (10 ^ t.length) h2
    simp only [List.foldl_cons, List.length_cons]
    have h4 : (a + 1) * 10 * 10 ^ t.length = (a + 1) * 10 ^ (t.length + 1) := by ring
    omega

theorem digitsToNat_lt (l : List Char) (h : ∀ c ∈ l, isAsciiDigit c = true) :
    digitsToNat l < 10 ^ l.length := by
  simpa [digitsToNat] using foldl_digits_lt l 0 h

theorem takeWhile_append_all (p : Char → Bool) (xs ys : List Char)
    (h : ∀ c ∈ xs, p c = true) : (xs ++ ys).takeWhile p = xs ++ ys.takeWhile p := by
  induction xs with
  | nil => simp
  | cons c t ih =>
    have hc : p c = true := h c (by simp)
    simp only [List.cons_append, List.takeWhile_cons, hc, if_true]
    rw [ih (fun x hx => h x (by simp [hx]))]

theorem dropWhile_append_all (p : Char → Bool) (xs ys : List Char)
    (h : ∀ c ∈ xs, p c = true) : (xs ++ ys).dropWhile p = ys.dropWhile p := by
  induction xs with
  | nil => simp
  | cons c t ih =>
    have hc : p c = true := h c (by simp)
    simp only [List.cons_append, List.dropWhile_cons, hc, if_true]
    exact ih (fun x hx => h x (by simp [hx]))

theorem takeWhile_all_eq (p : Char → Bool) (xs : List Char)
    (h : ∀ c ∈ xs, p c = true) : xs.takeWhile p = xs := by
  have := takeWhile_append_all p xs [] h
  simpa using this

theorem dropWhile_all_eq (p : Char → Bool) (xs : List Char)
    (h : ∀ c ∈ xs, p c = true) : xs.dropWhile p = [] := by
  have := dropWhile_append_all p xs [] h
  simpa using this

/-! ## Structure of lexically valid strings -/

theorem validUnsigned_decomp (l : List Char) (h : validUnsigned l = true) :
    ∃ ip tail, l = ip ++ tail ∧ ip ≠ [] ∧ (∀ c ∈ ip, isAsciiDigit c = true) ∧
      (ip.length ≤ 1 ∨ ¬ ip.head? = some '0') ∧
      (tail = [] ∨ ∃ fp, tail = '.' :: fp ∧ fp ≠ [] ∧ ∀ c ∈ fp, isAsciiDigit c = true) := by
  unfold validUnsigned intPartOK at h
  simp only [Bool.and_eq_true] at h
  obtain ⟨⟨⟨hne, hall⟩, hhead⟩, hfrac⟩ := h
  refine ⟨l.takeWhile isAsciiDigit, l.dropWhile isAsciiDigit,
    (List.takeWhile_append_dropWhile isAsciiDigit l).symm, ?_, ?_, ?_, ?_⟩
  · intro hnil
    rw [hnil] at hne
    simp at hne
  · intro c hc
    exact List.mem_takeWhile_imp hc
  · rcases Bool.or_eq_true _ _ |>.mp hhead with h1 | h1
    · exact Or.inl (decide_eq_true_iff.mp h1)
    · right
      simp only [Bool.not_eq_true', decide_eq_false_iff_not] at h1
      exact h1
  · cases hdw : l.dropWhile isAsciiDigit with
    | nil => exact Or.inl rfl
    | cons c fs =>
      right
      rw [hdw] at hfrac
      unfold fracTailOK at hfrac
      simp only [Bool.and_eq_true, decide_eq_true_iff] at hfrac
      obtain ⟨⟨hcdot, hfsne⟩, hfsall⟩ := hfrac
      refine ⟨fs, by rw [hcdot], ?_, ?_⟩
      · intro hnil; rw [hnil] at hfsne; simp at hfsne
      · intro x hx
        exact (List.all_eq_true.mp hfsall) x hx

/-! ## The mathematical value of a valid string -/

theorem strMVpos_valid (m : List Char) (h : validUnsigned m = true) :
    strMVpos m = (digitsToNat (m.takeWhile isAsciiDigit) : ℚ) +
      (digitsToNat (fracOf (m.dropWhile isAsciiDigit)) : ℚ) /
        ((10 ^ (fracOf (m.dropWhile isAsciiDigit)).length : ℕ) : ℚ) := by
  obtain ⟨ip, tail, heq, _, hipd, _, htail⟩ := validUnsigned_decomp m h
  subst heq
  rcases htail with h0 | ⟨fp, htfp, _, hfpd⟩
  · subst h0
    unfold strMVpos
    rw [dropWhile_append_all _ _ _ hipd]
    simp [afterFrac, expOf, qpow10]
  · subst htfp
    have hdot : isAsciiDigit '.' = false := rfl
    unfold strMVpos
    rw [dropWhile_append_all _ _ _ hipd]
    simp only [List.dropWhile_cons, hdot, Bool.false_eq_true, if_false]
    simp only [afterFrac, fracOf, List.head?_cons, if_pos, List.tail_cons]
    rw [dropWhile_all_eq _ _ hfpd]
    simp [expOf, qpow10]

theorem strMVpos_valid_nonneg (m : List Char) (h : validUnsigned m = true) :
    0 ≤ strMVpos m := by
  rw [strMVpos_valid m h]
  positivity

theorem qabs_of_nonneg (q : ℚ) (h : 0 ≤ q) : qabs q = q := by
  unfold qabs
  rw [if_neg (not_lt.mpr h)]

theorem qabs_neg_of_nonneg (q : ℚ) (h : 0 ≤ q) : qabs (-q) = q := by
  unfold qabs
  rcases eq_or_lt_of_le h with h0 | h0
  · rw [← h0]
    norm_num
  · rw [if_pos (by linarith)]
    exact neg_neg q

theorem qabs_strMV (l : List Char) (h : validNumeric l = true) :
    qabs (strMV l) = strMVpos (stripSign l) := by
  have hm : validUnsigned (stripSign l) = true := h
  have hnn := strMVpos_valid_nonneg _ hm
  unfold strMV
  by_cases hh : l.head? = some '-'
  · rw [if_pos hh]
    exact qabs_neg_of_nonneg _ hnn
  · rw [if_neg hh]
    exact qabs_of_nonneg _ hnn

theorem strMV_abs_repr (l : List Char) (h : validNumeric l = true) :
    qabs (strMV l) = (intPartAbs l : ℚ) +
      (digitsToNat (fracDigitsOf l) : ℚ) / ((10 ^ (fracDigitsOf l).length : ℕ) : ℚ) := by
  rw [qabs_strMV l h]
  exact strMVpos_valid (stripSign l) h

theorem fracDigitsOf_digits (l : List Char) (_ : validNumeric l = true) :
    ∀ c ∈ fracDigitsOf l, isAsciiDigit c = true := by
  intro c hc
  unfold fracDigitsOf fracOf at hc
  split at hc
  · exact List.mem_takeWhile_imp hc
  · simp at hc

/-! ## Characterisation of the magnitude bound step -/

theorem boundRejects_iff (l : List Char) (h : validNumeric l = true) :
    boundRejects l = true ↔
      (9007199254740991 < intPartAbs l ∨
        (intPartAbs l = 9007199254740991 ∧ digitsToNat (fracDigitsOf l) ≠ 0)) := by
  unfold boundRejects maxSafeInteger
  rw [decide_eq_true_iff, strMV_abs_repr l h]
  have hpow : (0:ℚ) < ((10 ^ (fracDigitsOf l).length : ℕ) : ℚ) := by positivity
  have hFlt : digitsToNat (fracDigitsOf l) < 10 ^ (fracDigitsOf l).length :=
    digitsToNat_lt _ (fracDigitsOf_digits l h)
  have hfq0 : (0:ℚ) ≤ (digitsToNat (fracDigitsOf l) : ℚ) /
      ((10 ^ (fracDigitsOf l).length : ℕ) : ℚ) := by positivity
  have hfq1 : (digitsToNat (fracDigitsOf l) : ℚ) /
      ((10 ^ (fracDigitsOf l).length : ℕ) : ℚ) < 1 := by
    rw [div_lt_one hpow]
    exact_mod_cast hFlt
  constructor
  · intro hlt
    by_cases hI : 9007199254740991 < intPartAbs l
    · exact Or.inl hI
    · right
      push_neg at hI
      have hIq : (intPartAbs l : ℚ) ≤ 9007199254740991 := by exact_mod_cast hI
      have hF0 : digitsToNat (fracDigitsOf l) ≠ 0 := by
        intro h0
        rw [h0] at hlt
        simp only [Nat.cast_zero, zero_div, add_zero] at hlt
        linarith
      have hIe : intPartAbs l = 9007199254740991 := by
        have h2 : (9007199254740991:ℚ) < (intPartAbs l : ℚ) + 1 := by linarith
        have h3 : (9007199254740991:ℕ) < intPartAbs l + 1 := by exact_mod_cast h2
        omega
      exact ⟨hIe, hF0⟩
  · intro hor
    rcases hor with hI | ⟨hIe, hF⟩
    · have hIq : (9007199254740991:ℚ) < (intPartAbs l : ℚ) := by exact_mod_cast hI
      linarith
    · have hFq : (0:ℚ) < (digitsToNat (fracDigitsOf l) : ℚ) /
          ((10 ^ (fracDigitsOf l).length : ℕ) : ℚ) := by
        apply div_pos _ hpow
        exact_mod_cast Nat.pos_of_ne_zero hF
      have hIq : (intPartAbs l : ℚ) = 9007199254740991 := by exact_mod_cast hIe
      linarith

/-! ## Character-level consequences of lexical validity -/

theorem validUnsigned_chars (m : List Char) (h : validUnsigned m = true) :
    ∀ c ∈ m, isAsciiDigit c = true ∨ c = '.' := by
  obtain ⟨ip, tail, heq, _, hipd, _, htail⟩ := validUnsigned_decomp m h
  subst heq
  intro c hc
  rcases List.mem_append.mp hc with h1 | h2
  · exact Or.inl (hipd c h1)
  · rcases htail with h0 | ⟨fp, htfp, _, hfpd⟩
    · rw [h0] at h2
      simp at h2
    · rw [htfp] at h2
      rcases List.mem_cons.mp h2 with h3 | h3
      · exact Or.inr h3
      · exact Or.inl (hfpd c h3)

theorem stripSign_of_minus (d : Char) (t : List Char) (h : (d :: t).head? = some '-') :
    stripSign (d :: t) = t := by
  unfold stripSign
  rw [if_pos h]
  rfl

theorem stripSign_of_nonminus (l : List Char) (h : ¬ l.head? = some '-') :
    stripSign l = l := by
  unfold stripSign
  rw [if_neg h]

theorem valid_chars (l : List Char) (h : validNumeric l = true) :
    ∀ c ∈ l, isAsciiDigit c = true ∨ c = '.' ∨ c = '-' := by
  intro c hc
  have h' : validUnsigned (stripSign l) = true := h
  by_cases hh : l.head? = some '-'
  · cases l with
    | nil => simp at hc
    | cons d t =>
      have hd : d = '-' := by simpa using hh
      rw [stripSign_of_minus d t hh] at h'
      rcases List.mem_cons.mp hc with h1 | h1
      · exact Or.inr (Or.inr (h1.trans hd))
      · rcases validUnsigned_chars t h' c h1 with h2 | h2
        · exact Or.inl h2
        · exact Or.inr (Or.inl h2)
  · rw [stripSign_of_nonminus l hh] at h'
    rcases validUnsigned_chars l h' c hc with h2 | h2
    · exact Or.inl h2
    · exact Or.inr (Or.inl h2)

theorem valid_no_minus_tail (l : List Char) (h : validNumeric l = true) :
    '-' ∉ l.drop 1 := by
  intro hmem
  have h' : validUnsigned (stripSign l) = true := h
  by_cases hh : l.head? = some '-'
  · cases l with
    | nil => simp at hmem
    | cons d t =>
      rw [stripSign_of_minus d t hh] at h'
      simp only [List.drop_succ_cons, List.drop_zero] at hmem
      rcases validUnsigned_chars t h' '-' hmem with h2 | h2
      · exact absurd h2 (by decide)
      · exact absurd h2 (by decide)
  · rw [stripSign_of_nonminus l hh] at h'
    have hmem' : '-' ∈ l := List.mem_of_mem_drop hmem
    rcases validUnsigned_chars l h' '-' hmem' with h2 | h2
    · exact absurd h2 (by decide)
    · exact absurd h2 (by decide)

theorem validUnsigned_count_dot (m : List Char) (h : validUnsigned m = true) :
    m.count '.' ≤ 1 := by
  obtain ⟨ip, tail, heq, _, hipd, _, htail⟩ := validUnsigned_decomp m h
  subst heq
  have hip0 : ip.count '.' = 0 := by
    rw [List.count_eq_zero]
    intro hdot
    exact absurd (hipd '.' hdot) (by decide)
  rcases htail with h0 | ⟨fp, htfp, _, hfpd⟩
  · subst h0
    simp [List.count_append, hip0]
  · subst htfp
    have hfp0 : fp.count '.' = 0 := by
      rw [List.count_eq_zero]
      intro hdot
      exact absurd (hfpd '.' hdot) (by decide)
    simp [List.count_append, List.count_cons, hip0, hfp0]

theorem valid_count_dot (l : List Char) (h : validNumeric l = true) :
    l.count '.' ≤ 1 := by
  have h' : validUnsigned (stripSign l) = true := h
  by_cases hh : l.head? = some '-'
  · cases l with
    | nil => simp
    | cons d t =>
      have hd : d = '-' := by simpa using hh
      rw [stripSign_of_minus d t hh] at h'
      rw [hd]
      have := validUnsigned_count_dot t h'
      simpa [List.count_cons] using this
  · rw [stripSign_of_nonminus l hh] at h'
    exact validUnsigned_count_dot l h'

theorem split_at_unique (a : Char) :
    ∀ (u x y z : List Char), u ++ a :: y = x ++ a :: z → a ∉ u → a ∉ x →
      u = x ∧ y = z := by
  intro u
  induction u with
  | nil =>
    intro x y z h _ hx
    cases x with
    | nil =>
      simp only [List.nil_append, List.cons.injEq] at h
      exact ⟨rfl, h.2⟩
    | cons c xs =>
      simp only [List.nil_append, List.cons_append, List.cons.injEq] at h
      obtain ⟨h1, _⟩ := h
      subst h1
      exact absurd (List.mem_cons_self _ _) hx
  | cons c us ih =>
    intro x y z h hu hx
    cases x with
    | nil =>
      simp only [List.cons_append, List.nil_append, List.cons.injEq] at h
      obtain ⟨h1, _⟩ := h
      subst h1
      exact absurd (List.mem_cons_self _ _) hu
    | cons d xs =>
      simp only [List.cons_append, List.cons.injEq] at h
      obtain ⟨hcd, hrest⟩ := h
      have hu' : a ∉ us := fun hm => hu (List.mem_cons.mpr (Or.inr hm))
      have hx' : a ∉ xs := fun hm => hx (List.mem_cons.mpr (Or.inr hm))
      obtain ⟨h1, h2⟩ := ih xs y z hrest hu' hx'
      exact ⟨by rw [hcd, h1], h2⟩

theorem valid_dot_neighbors (l : List Char) (h : validNumeric l = true)
    (x y : List Char) (hsplit : l = x ++ '.' :: y) :
    (∃ c, x.getLast? = some c ∧ isAsciiDigit c = true) ∧
      (∃ c, y.head? = some c ∧ isAsciiDigit c = true) := by
  have h' : validUnsigned (stripSign l) = true := h
  obtain ⟨ip, tail, heq, hipne, hipd, _, htail⟩ := validUnsigned_decomp _ h'
  -- the sign prefix
  obtain ⟨pre, hpre, hprenodot⟩ : ∃ pre, l = pre ++ stripSign l ∧ '.' ∉ pre := by
    by_cases hh : l.head? = some '-'
    · cases l with
      | nil => simp at hh
      | cons d t =>
        have hd : d = '-' := by simpa using hh
        exact ⟨[d], by rw [stripSign_of_minus d t hh]; rfl, by simp [hd]⟩
    · exact ⟨[], by rw [stripSign_of_nonminus l hh]; simp, by simp⟩
  rcases htail with h0 | ⟨fp, htfp, hfpne, hfpd⟩
  · -- no decimal point at all, yet l splits at one: contradiction
    exfalso
    have hdotl : '.' ∈ l := by
      rw [hsplit]
      exact List.mem_append.mpr (Or.inr (List.mem_cons.mpr (Or.inl rfl)))
    rw [hpre, heq, h0, List.append_nil] at hdotl
    rcases List.mem_append.mp hdotl with hm | hm
    · exact hprenodot hm
    · exact absurd (hipd '.' hm) (by decide)
  · -- l = (pre ++ ip) ++ '.' :: fp, and the split point is unique
    have hl : l = (pre ++ ip) ++ '.' :: fp := by
      rw [hpre, heq, htfp, List.append_assoc]
    have hnodotu : '.' ∉ pre ++ ip := by
      intro hm
      rcases List.mem_append.mp hm with hm | hm
      · exact hprenodot hm
      · exact absurd (hipd '.' hm) (by decide)
    have hnodotx : '.' ∉ x := by
      intro hm
      have hcount := valid_count_dot l h
      rw [hsplit] at hcount
      simp only [List.count_append, List.count_cons_self] at hcount
      have hcp : 0 < x.count '.' := List.count_pos_iff.mpr hm
      omega
    obtain ⟨hux, hyz⟩ := split_at_unique '.' (pre ++ ip) x fp y (hl.symm.trans hsplit) hnodotu hnodotx
    constructor
    · obtain ⟨ip', a, hconcat⟩ := (List.eq_nil_or_concat ip).resolve_left hipne
      refine ⟨a, ?_, hipd a (by rw [hconcat]; simp)⟩
      rw [← hux, hconcat]
      simp [List.getLast?_append, List.getLast?_concat]
    · cases fp with
      | nil => exact absurd rfl hfpne
      | cons c fs =>
        exact ⟨c, by rw [← hyz]; rfl, hfpd c (List.mem_cons.mpr (Or.inl rfl))⟩

theorem valid_no_leading_zero (l : List Char) (h : validNumeric l = true) :
    ¬(2 ≤ (intDigitsOf l).length ∧ (intDigitsOf l).head? = some '0') := by
  have h' : validUnsigned (stripSign l) = true := h
  unfold validUnsigned intPartOK at h'
  simp only [Bool.and_eq_true] at h'
  obtain ⟨⟨_, hhead⟩, _⟩ := h'
  rintro ⟨hlen, hhd⟩
  unfold intDigitsOf at hlen hhd
  rcases Bool.or_eq_true _ _ |>.mp hhead with h1 | h1
  · rw [decide_eq_true_iff] at h1
    omega
  · simp only [Bool.not_eq_true', decide_eq_false_iff_not] at h1
    exact h1 hhd

theorem whitespace_not_allowed (c : Char) (hw : c.isWhitespace = true) :
    isAsciiDigit c = false ∧ c ≠ '.' ∧ c ≠ '-' := by
  unfold Char.isWhitespace at hw
  simp only [Bool.or_eq_true, decide_eq_true_iff] at hw
  rcases hw with ((h | h) | h) | h <;> subst h <;> exact ⟨rfl, by decide, by decide⟩

/-! ## Unfolding the orchestrator -/

theorem isSafeNumericStr_of_invalid (l : List Char) (h : validNumeric l = false) :
    isSafeNumericStr l = false := by
  unfold isSafeNumericStr
  rw [h]
  rfl

theorem isSafeNumericStr_of_bound (l : List Char) (h : boundRejects l = true) :
    isSafeNumericStr l = false := by
  unfold isSafeNumericStr
  rw [h]
  cases hv : validNumeric l <;> rfl

theorem isSafeNumericStr_accepting (l : List Char) (h1 : validNumeric l = true)
    (h2 : boundRejects l = false) :
    isSafeNumericStr l =
      ratEq (strMV l) (strMV (numberToString (roundB64 (strMV l)))) := by
  unfold isSafeNumericStr
  rw [h1, h2]
  rfl

/-! ## The claims -/

set_option maxRecDepth 100000

/-- C1: for every string that passes the lexical grammar (spec.emu
steps 3-5) and the magnitude-bound check (step 7), `isSafeNumeric`
returns true if and only if the exact mathematical value of the string
equals the exact mathematical value of the string produced by
converting it to binary64 (round to nearest, ties to even) and
formatting that value back as its shortest round-trip decimal string;
the comparison is an exact decimal (rational) comparison, not a
floating-point one. -/
theorem claim1_accept_iff_roundtrip_value (s : String)
    (h1 : validNumeric s.data = true) (h2 : boundRejects s.data = false) :
    isSafeNumeric (JSVal.str s) = true ↔
      strMV s.data = strMV (numberToString (roundB64 (strMV s.data))) := by
  show isSafeNumericStr s.data = true ↔ _
  rw [isSafeNumericStr_accepting s.data h1 h2, ratEq_iff]

/-- Witness for C1 at the concrete input `"0.1"`. -/
theorem claim1_witness :
    validNumeric "0.1".data = true ∧ boundRejects "0.1".data = false ∧
      (isSafeNumeric (JSVal.str "0.1") = true ↔
        strMV "0.1".data = strMV (numberToString (roundB64 (strMV "0.1".data)))) :=
  ⟨by decide, by with_unfolding_all decide,
    claim1_accept_iff_roundtrip_value "0.1" (by decide) (by with_unfolding_all decide)⟩

/-- C2: if `isSafeNumeric(s)` is true then the mathematical value of
`s` equals the mathematical value of the shortest-decimal formatting of
the binary64 value of `s` (accepted strings are fixed points, up to
exact mathematical value, of the decimal-binary64-decimal map);
conversely, among the grammar-valid strings passing the magnitude
bound, every such fixed point is accepted. -/
theorem claim2_accepted_iff_fixed_point :
    (∀ s : String, isSafeNumeric (JSVal.str s) = true →
      strMV s.data = strMV (numberToString (roundB64 (strMV s.data)))) ∧
    (∀ s : String, validNumeric s.data = true → boundRejects s.data = false →
      strMV s.data = strMV (numberToString (roundB64 (strMV s.data))) →
      isSafeNumeric (JSVal.str s) = true) := by
  constructor
  · intro s hacc
    have hacc' : isSafeNumericStr s.data = true := hacc
    cases hv : validNumeric s.data with
    | false =>
      rw [isSafeNumericStr_of_invalid _ hv] at hacc'
      exact absurd hacc' (by simp)
    | true =>
      cases hb : boundRejects s.data with
      | true =>
        rw [isSafeNumericStr_of_bound _ hb] at hacc'
        exact absurd hacc' (by simp)
      | false =>
        rw [isSafeNumericStr_accepting _ hv hb] at hacc'
        exact (ratEq_iff _ _).mp hacc'
  · intro s hv hb heq
    show isSafeNumericStr s.data = true
    rw [isSafeNumericStr_accepting _ hv hb]
    exact (ratEq_iff _ _).mpr heq

/-- Witness for C2 at the concrete input `"1.1"`. -/
theorem claim2_witness :
    isSafeNumeric (JSVal.str "1.1") = true ∧
      strMV "1.1".data = strMV (numberToString (roundB64 (strMV "1.1".data))) :=
  ⟨by with_unfolding_all decide,
    claim2_accepted_iff_fixed_point.1 "1.1" (by with_unfolding_all decide)⟩

/-- C3 counterexample: the claim says the bound step compares only the
integer-part digits, so that a string whose integer part equals
9007199254740991 with a non-empty fractional part is not rejected
there.  On `"9007199254740991.5"` the integer part equals
9007199254740991, yet the bound step of spec.emu - which compares
`abs(mv1)` of the whole string against `2 ^ 53 - 1` - rejects. -/
theorem claim3_counterexample :
    validNumeric "9007199254740991.5".data = true ∧
      intPartAbs "9007199254740991.5".data = 9007199254740991 ∧
      boundRejects "9007199254740991.5".data = true :=
  ⟨by decide, by decide, by with_unfolding_all decide⟩

/-- C3 (amended): for every grammar-valid string, the magnitude-bound
step rejects exactly when the integer part exceeds 9007199254740991,
or equals 9007199254740991 with a fractional part of nonzero value; in
particular the fractional digits do matter at the boundary, and a
string whose integer part equals 9007199254740991 with a nonzero
fractional part is rejected at this step. -/
theorem claim3_bound_characterisation (s : String) (h : validNumeric s.data = true) :
    boundRejects s.data = true ↔
      (9007199254740991 < intPartAbs s.data ∨
        (intPartAbs s.data = 9007199254740991 ∧ digitsToNat (fracDigitsOf s.data) ≠ 0)) :=
  boundRejects_iff s.data h

/-- Witness for C3 (amended) at the concrete input `"9007199254740992.5"`. -/
theorem claim3_witness :
    validNumeric "9007199254740992.5".data = true ∧
      boundRejects "9007199254740992.5".data = true :=
  ⟨by decide,
    (claim3_bound_characterisation "9007199254740992.5" (by decide)).mpr (Or.inl (by decide))⟩

/-- C4: `isSafeNumeric "9007199254740991"` is true,
`isSafeNumeric "9007199254740992"` is false, and the bound is inclusive
on the negative side: `isSafeNumeric "-9007199254740991"` is true. -/
theorem claim4_magnitude_bound_examples :
    isSafeNumeric (JSVal.str "9007199254740991") = true ∧
      isSafeNumeric (JSVal.str "9007199254740992") = false ∧
      isSafeNumeric (JSVal.str "-9007199254740991") = true :=
  ⟨by with_unfolding_all decide, by with_unfolding_all decide, by with_unfolding_all decide⟩

/-- C5: `isSafeNumeric "0.1"` and `isSafeNumeric "1234.5678"` are true
(their values survive the binary64 round trip in shortest form), while
`isSafeNumeric "0.1234567890123456789"` is false (the round trip
changes the value). -/
theorem claim5_roundtrip_examples :
    isSafeNumeric (JSVal.str "0.1") = true ∧
      isSafeNumeric (JSVal.str "1234.5678") = true ∧
      isSafeNumeric (JSVal.str "0.1234567890123456789") = false :=
  ⟨by with_unfolding_all decide, by with_unfolding_all decide, by with_unfolding_all decide⟩

/-- C6: every string containing whitespace, a sign other than a single
leading minus, more than one decimal point, a decimal point without a
digit on each side, a leading zero in an integer part of length
greater than one, any character outside the permitted set, or the
empty string, is rejected; and concretely `isSafeNumeric "-0.123"` is
true while `".123"`, `"123."` and `"00123"` are rejected. -/
theorem claim6_lexical_rejection :
    (∀ s : String,
      ((∃ c ∈ s.data, c.isWhitespace = true) ∨
        ('+' ∈ s.data ∨ '-' ∈ s.data.drop 1) ∨
        2 ≤ s.data.count '.' ∨
        (∃ x y, s.data = x ++ '.' :: y ∧
          (¬(∃ c, x.getLast? = some c ∧ isAsciiDigit c = true) ∨
            ¬(∃ c, y.head? = some c ∧ isAsciiDigit c = true))) ∨
        (2 ≤ (intDigitsOf s.data).length ∧ (intDigitsOf s.data).head? = some '0') ∨
        (∃ c ∈ s.data, isAsciiDigit c = false ∧ c ≠ '.' ∧ c ≠ '-') ∨
        s.data = []) →
      isSafeNumeric (JSVal.str s) = false) ∧
    isSafeNumeric (JSVal.str "-0.123") = true ∧
    isSafeNumeric (JSVal.str ".123") = false ∧
    isSafeNumeric (JSVal.str "123.") = false ∧
    isSafeNumeric (JSVal.str "00123") = false := by
  refine ⟨?_, by with_unfolding_all decide, by decide, by decide, by decide⟩
  intro s hbad
  show isSafeNumericStr s.data = false
  cases hv : validNumeric s.data with
  | false => exact isSafeNumericStr_of_invalid _ hv
  | true =>
    exfalso
    rcases hbad with ⟨c, hc, hw⟩ | (hplus | hminus) | hcount | ⟨x, y, hsplit, hbaddot⟩ |
      hzero | ⟨c, hc, hbadc⟩ | hempty
    · obtain ⟨hd, hdot, hdash⟩ := whitespace_not_allowed c hw
      rcases valid_chars _ hv c hc with h2 | h2 | h2
      · rw [hd] at h2; exact absurd h2 (by simp)
      · exact hdot h2
      · exact hdash h2
    · rcases valid_chars _ hv '+' hplus with h2 | h2 | h2 <;> exact absurd h2 (by decide)
    · exact valid_no_minus_tail _ hv hminus
    · have := valid_count_dot _ hv
      omega
    · obtain ⟨hleft, hright⟩ := valid_dot_neighbors _ hv x y hsplit
      rcases hbaddot with hbd | hbd
      · exact hbd hleft
      · exact hbd hright
    · exact valid_no_leading_zero _ hv hzero
    · obtain ⟨hd, hdot, hdash⟩ := hbadc
      rcases valid_chars _ hv c hc with h2 | h2 | h2
      · rw [hd] at h2; exact absurd h2 (by simp)
      · exact hdot h2
      · exact hdash h2
    · rw [hempty] at hv
      exact absurd hv (by decide)

/-- Witness for C6 at the concrete input `" "`. -/
theorem claim6_witness : isSafeNumeric (JSVal.str " ") = false :=
  claim6_lexical_rejection.1 " " (Or.inl ⟨' ', by decide, by decide⟩)

/-- C7: every string containing a scientific-notation exponent marker
`e` or `E` is rejected; in particular `"1e5"` and `"1e-25"` are
rejected. -/
theorem claim7_no_exponent_marker :
    (∀ s : String, ('e' ∈ s.data ∨ 'E' ∈ s.data) →
      isSafeNumeric (JSVal.str s) = false) ∧
    isSafeNumeric (JSVal.str "1e5") = false ∧
    isSafeNumeric (JSVal.str "1e-25") = false := by
  refine ⟨?_, by decide, by decide⟩
  intro s hmem
  show isSafeNumericStr s.data = false
  cases hv : validNumeric s.data with
  | false => exact isSafeNumericStr_of_invalid _ hv
  | true =>
    exfalso
    rcases hmem with hm | hm
    · rcases valid_chars _ hv 'e' hm with h2 | h2 | h2 <;> exact absurd h2 (by decide)
    · rcases valid_chars _ hv 'E' hm with h2 | h2 | h2 <;> exact absurd h2 (by decide)

/-- Witness for C7 at the concrete input `"1e5"`. -/
theorem claim7_witness : isSafeNumeric (JSVal.str "1e5") = false :=
  claim7_no_exponent_marker.1 "1e5" (Or.inl (by decide))

/-- C8: `isSafeNumeric` is total - on every input value it returns one
of the two booleans (the shallow embedding is a total function into
`Bool`, so it cannot throw or signal) - and every non-string input is
rejected without any lexical analysis. -/
theorem claim8_total_and_nonstring_false :
    (∀ v : JSVal, isSafeNumeric v = true ∨ isSafeNumeric v = false) ∧
      (∀ v : JSVal, isString v = false → isSafeNumeric v = false) := by
  constructor
  · intro v
    cases h : isSafeNumeric v with
    | true => exact Or.inl rfl
    | false => exact Or.inr rfl
  · intro v h
    cases v with
    | str s => exact absurd h (by simp [isString])
    | num x => rfl
    | bool b => rfl
    | undef => rfl
    | null => rfl
    | obj id => rfl

/-- Witness for C8 at the concrete non-string input `undefined`. -/
theorem claim8_witness : isSafeNumeric JSVal.undef = false :=
  claim8_total_and_nonstring_false.2 JSVal.undef rfl

/-- C9: `isSafeNumeric "-0"` is true: the grammar accepts a single
leading minus followed by the digit `0`, the binary64 value formats
back as `"0"`, and the final comparison is on exact mathematical
values, under which the value of `"-0"` equals the value of `"0"`. -/
theorem claim9_negative_zero :
    isSafeNumeric (JSVal.str "-0") = true ∧
      numberToString (roundB64 (strMV "-0".data)) = ['0'] ∧
      strMV "-0".data = strMV "0".data :=
  ⟨by with_unfolding_all decide, by with_unfolding_all decide, by with_unfolding_all decide⟩

/-- C10: `"1234.000000000000000000000000"` is accepted even though its
re-serialisation `ToString(ToNumber(s))` is the different string
`"1234"`: the final comparison is on exact mathematical values, not on
strings, so distinct accepted strings may denote the same number
(`"1234"` is also accepted, with the same mathematical value). -/
theorem claim10_value_not_string_identity :
    isSafeNumeric (JSVal.str "1234.000000000000000000000000") = true ∧
      numberToString (roundB64 (strMV "1234.000000000000000000000000".data)) = "1234".data ∧
      "1234.000000000000000000000000".data ≠ "1234".data ∧
      isSafeNumeric (JSVal.str "1234") = true ∧
      strMV "1234.000000000000000000000000".data = strMV "1234".data :=
  ⟨by with_unfolding_all decide, by with_unfolding_all decide, by decide,
    by with_unfolding_all decide, by with_unfolding_all decide⟩

end IsSafeNumeric
